import Mathlib

set_option maxRecDepth 8000

/-!
# DuckLedger — verification of the specification against `bot.py`

Shallow embedding of the expense-tracking bot in `src/bot.py`:

* Python `str` values are embedded as `List Char` (Python strings are
  sequences of Unicode code points, and all operations the bot performs —
  slicing, `find`, `strip`, `replace`, comparison — act on code points).
* Amounts are embedded as `ℚ`.  The bot stores amounts as Python floats;
  every claim under scrutiny only concerns which decimal literals are
  accepted and their sign/ordering, for which exact rationals are a
  faithful model of finite decimal literals.
* SQLite tables are embedded as Lean lists of records in rowid order.
* Dates (`datetime.date`, stored as `YYYY-MM-DD` TEXT) are embedded as a
  `Date` structure; SQLite's BINARY comparison of two zero-padded ISO
  strings coincides with comparison of the numeric key
  `y*10000 + m*100 + d` used here.
-/

namespace DuckLedger

/-- Python line-boundary characters recognised by `str.splitlines`
(LF, CR, VT, FF, FS, GS, RS, NEL, LINE SEPARATOR, PARAGRAPH SEPARATOR). -/
def isNlChar (c : Char) : Bool :=
  c = '\n' || c = '\x0d' || c = '\x0b' || c = '\x0c' || c = '\x1c' ||
  c = '\x1d' || c = '\x1e' || c = '\u0085' || c = '\u2028' || c = '\u2029'

/-- Whitespace as stripped by Python `str.strip()` (ASCII whitespace plus
the line-boundary set; exotic Unicode spaces are not needed by any claim). -/
def isWsChar (c : Char) : Bool :=
  c = ' ' || c = '\t' || isNlChar c

/-- `text.splitlines()`: split at each line-boundary character.  A
two-character `"\r\n"` boundary yields an extra empty piece here, which is
irrelevant because the caller drops blank lines. -/
def splitNl : List Char → List (List Char)
  | [] => [[]]
  | c :: cs =>
    let r := splitNl cs
    if isNlChar c then [] :: r
    else
      match r with
      | [] => [[c]]
      | h :: t => (c :: h) :: t

/-- Left part of Python `str.strip()`. -/
def ltrim (cs : List Char) : List Char := cs.dropWhile isWsChar

/-- Right part of Python `str.strip()`. -/
def rtrim (cs : List Char) : List Char := (cs.reverse.dropWhile isWsChar).reverse

/-- Python `str.strip()`. -/
def trimC (cs : List Char) : List Char := rtrim (ltrim cs)

/-- `[line.strip() for line in text.splitlines() if line.strip()]`. -/
def linesOf (text : List Char) : List (List Char) :=
  ((splitNl text).map trimC).filter (fun l => decide (l ≠ []))

/-- ASCII decimal digit. -/
def isDigitC (c : Char) : Bool := 48 ≤ c.toNat && c.toNat ≤ 57

/-- Value of a most-significant-first digit string. -/
def digitsVal (ds : List Char) : ℕ := ds.foldl (fun a c => 10 * a + (c.toNat - 48)) 0

/-- Exponent-digit part of a Python float literal: all remaining characters
must be digits and at least one must be present. -/
def expDigits (ds : List Char) : Option ℤ :=
  if ds ≠ [] ∧ ds.all isDigitC then some (digitsVal ds) else none

/-- Optional exponent suffix (`e`/`E`, optional sign, digits) of a Python
float literal; `none` on trailing junk. -/
def pyExp : List Char → Option ℤ
  | [] => some 0
  | c :: r =>
    if c = 'e' ∨ c = 'E' then
      match r with
      | '+' :: ds => expDigits ds
      | '-' :: ds => (expDigits ds).map (fun z => -z)
      | ds => expDigits ds
    else none

/-- Unsigned part of Python `float()` on a finite decimal literal:
`digits [. digits]` or `. digits`, then an optional exponent. -/
def pyFloatPos (cs : List Char) : Option ℚ :=
  let ip := cs.takeWhile isDigitC
  let r1 := cs.dropWhile isDigitC
  match r1 with
  | '.' :: r2 =>
    let fp := r2.takeWhile isDigitC
    let r3 := r2.dropWhile isDigitC
    if ip.isEmpty && fp.isEmpty then none
    else (pyExp r3).map (fun e =>
      ((digitsVal ip : ℚ) + (digitsVal fp : ℚ) / (10 : ℚ) ^ fp.length) * (10 : ℚ) ^ e)
  | _ =>
    if ip.isEmpty then none
    else (pyExp r1).map (fun e => (digitsVal ip : ℚ) * (10 : ℚ) ^ e)

/-- Python `float()` restricted to finite decimal literals (optional sign,
digits, decimal point, exponent).  Python additionally accepts
`inf`/`nan` spellings and underscore digit separators; no claim depends
on those inputs, and they are outside this model. -/
def pyFloat (cs : List Char) : Option ℚ :=
  match cs with
  | '+' :: r => pyFloatPos r
  | '-' :: r => (pyFloatPos r).map (fun q => -q)
  | _ => pyFloatPos cs

/-- The structured parse error raised by `parse_lines_category_amount`
(`ParseError` in `bot.py`); per-line constructors carry the offending
(stripped) line. -/
inductive ParseErr
  | emptyInput
  | missingSep (line : List Char)
  | emptyCategory (line : List Char)
  | emptyAmount (line : List Char)
  | invalidAmount (line : List Char)
  | nonPositiveAmount (line : List Char)
deriving DecidableEq, Repr

/-- The exact message text each `ParseError(...)` is raised with. -/
def renderErr : ParseErr → List Char
  | .emptyInput => "Пустой ввод.".data
  | .missingSep l => "Не удалось найти разделитель \x27-\x27 в строке: «".data ++ l ++ "»".data
  | .emptyCategory l => "Не указана категория в строке: «".data ++ l ++ "»".data
  | .emptyAmount l => "Не указана сумма в строке: «".data ++ l ++ "»".data
  | .invalidAmount l => "Не удалось распознать сумму в строке: «".data ++ l ++ "»".data
  | .nonPositiveAmount l => "Сумма должна быть больше 0: «".data ++ l ++ "»".data

/-- The offending line carried by a per-line error (none for `emptyInput`). -/
def errLine : ParseErr → Option (List Char)
  | .emptyInput => none
  | .missingSep l => some l
  | .emptyCategory l => some l
  | .emptyAmount l => some l
  | .invalidAmount l => some l
  | .nonPositiveAmount l => some l

/-- The recognised separators, in the order the code tries them. -/
def sepChars : List Char := ['-', '—', '–']

/-- `for sep in ["-","—","–"]: if sep in line: sep_index = line.find(sep); break`. -/
def sepIdx (l : List Char) : Option ℕ :=
  if l.any (fun c => c = '-') then some (l.findIdx (fun c => c = '-'))
  else if l.any (fun c => c = '—') then some (l.findIdx (fun c => c = '—'))
  else if l.any (fun c => c = '–') then some (l.findIdx (fun c => c = '–'))
  else none

/-- `line[sep_index+1:].strip().replace(" ", "").replace(",", ".")`
applied to the slice after the separator. -/
def cleanAmount (cs : List Char) : List Char :=
  ((trimC cs).filter (fun c => decide (c ≠ ' '))).map (fun c => if c = ',' then '.' else c)

/-- The body of the per-line loop of `parse_lines_category_amount`. -/
def lineResult (l : List Char) : Except ParseErr (List Char × ℚ) :=
  match sepIdx l with
  | none => .error (.missingSep l)
  | some i =>
    let category := trimC (l.take i)
    let amountStr := cleanAmount (l.drop (i + 1))
    if category = [] then .error (.emptyCategory l)
    else if amountStr = [] then .error (.emptyAmount l)
    else
      match pyFloat amountStr with
      | none => .error (.invalidAmount l)
      | some q => if q ≤ 0 then .error (.nonPositiveAmount l) else .ok (category, q)

deriving instance DecidableEq for Except

/-- The loop of `parse_lines_category_amount`: stop at the first bad line. -/
def parseLines : List (List Char) → Except ParseErr (List (List Char × ℚ))
  | [] => .ok []
  | l :: ls =>
    match lineResult l with
    | .error e => .error e
    | .ok p =>
      match parseLines ls with
      | .error e => .error e
      | .ok ps => .ok (p :: ps)

/-- `parse_lines_category_amount` (`bot.py`, lines 228–269). -/
def parse (text : List Char) : Except ParseErr (List (List Char × ℚ)) :=
  let ls := linesOf text
  if ls = [] then .error .emptyInput else parseLines ls

/-! ## Dates and the current-month window -/

/-- A `datetime.date`; stored in the DB as the TEXT `"%Y-%m-%d"`. -/
structure Date where
  y : ℕ
  m : ℕ
  d : ℕ
deriving DecidableEq, Repr

/-- Numeric key realising SQLite's BINARY order on zero-padded ISO date
strings. -/
def dateKey (d : Date) : ℕ := d.y * 10000 + d.m * 100 + d.d

/-- `dt1 <= dt2` as SQLite compares the stored TEXT columns. -/
def dateLeB (a b : Date) : Bool := decide (dateKey a ≤ dateKey b)

/-- Gregorian month length, as `datetime.date` arithmetic produces it. -/
def isLeap (y : ℕ) : Bool := (y % 4 = 0 && y % 100 ≠ 0) || y % 400 = 0

def daysInMonth (y m : ℕ) : ℕ :=
  if m = 2 then (if isLeap y then 29 else 28)
  else if m = 4 ∨ m = 6 ∨ m = 9 ∨ m = 11 then 30
  else 31

/-- `some_date - timedelta(days=1)` for the dates this program feeds it. -/
def predDay (d : Date) : Date :=
  if 1 < d.d then ⟨d.y, d.m, d.d - 1⟩
  else if 1 < d.m then ⟨d.y, d.m - 1, daysInMonth d.y (d.m - 1)⟩
  else ⟨d.y - 1, 12, 31⟩

/-- `date(today.year, today.month, 1)`. -/
def monthStart (t : Date) : Date := ⟨t.y, t.m, 1⟩

/-- `next_month` of `get_current_month_range`. -/
def nextMonthStart (t : Date) : Date :=
  if t.m = 12 then ⟨t.y + 1, 1, 1⟩ else ⟨t.y, t.m + 1, 1⟩

/-- `get_current_month_range` (`bot.py`, lines 129–137):
`(start, next_month - timedelta(days=1))`. -/
def getCurrentMonthRange (t : Date) : Date × Date :=
  (monthStart t, predDay (nextMonthStart t))

/-- The `dt BETWEEN start AND end` condition shared verbatim by the
stats, analytics, categories and export queries (BETWEEN is inclusive at
both TEXT endpoints). -/
def monthFilter (t : Date) (d : Date) : Bool :=
  dateLeB (getCurrentMonthRange t).1 d && dateLeB d (getCurrentMonthRange t).2

/-! ## The store -/

/-- A row of the `expenses` table, in rowid order. -/
structure Expense where
  user : ℕ
  dt : Date
  category : List Char
  amount : ℚ
deriving DecidableEq, Repr

/-- A row of the `limits` table (`UNIQUE(user_id, category)`). -/
structure LimitRow where
  user : ℕ
  category : List Char
  limitAmount : ℚ
deriving DecidableEq, Repr

/-- The two tables created by `init_db`. -/
structure DB where
  expenses : List Expense
  limits : List LimitRow
deriving DecidableEq, Repr

/-- The freshly initialised store (`init_db` creates empty tables). -/
def initDb : DB := ⟨[], []⟩

/-- `add_expenses_db`: one INSERT per parsed item, all dated `today`. -/
def addExpensesDb (uid : ℕ) (items : List (List Char × ℚ)) (today : Date) (db : DB) : DB :=
  { db with expenses := db.expenses ++ items.map (fun p => ⟨uid, today, p.1, p.2⟩) }

/-- One `INSERT INTO limits ... ON CONFLICT(user_id, category) DO UPDATE`:
update the (unique) conflicting row, or append a fresh one. -/
def upsertLimit (uid : ℕ) (cat : List Char) (amt : ℚ) (ls : List LimitRow) : List LimitRow :=
  if ls.any (fun r => decide (r.user = uid) && decide (r.category = cat)) then
    ls.map (fun r =>
      if r.user = uid ∧ r.category = cat then { r with limitAmount := amt } else r)
  else ls ++ [⟨uid, cat, amt⟩]

/-- `set_limits_db` (`bot.py`, lines 97–111): upsert each parsed pair. -/
def setLimitsDb (uid : ℕ) (items : List (List Char × ℚ)) (db : DB) : DB :=
  { db with limits := items.foldl (fun ls p => upsertLimit uid p.1 p.2 ls) db.limits }

/-- `clear_user_data` (`bot.py`, lines 214–219):
`DELETE FROM expenses WHERE user_id = ?` — the limits table is not touched. -/
def clearUserData (uid : ℕ) (db : DB) : DB :=
  { db with expenses := db.expenses.filter (fun e => decide (e.user ≠ uid)) }

/-- Modelled from the spec: `list_expenses(owner)` — the repository has no
standalone listing function; every query selects rows with
`WHERE user_id = ?` exactly like this. -/
def listExpenses (o : ℕ) (db : DB) : List Expense :=
  db.expenses.filter (fun e => decide (e.user = o))

/-- The rows every monthly query ranges over:
`WHERE user_id = ? AND dt BETWEEN ? AND ?` with the current-month range. -/
def monthRows (uid : ℕ) (t : Date) (db : DB) : List Expense :=
  db.expenses.filter (fun e => decide (e.user = uid) && monthFilter t e.dt)

/-! ## Sorting (Python `sorted`) -/

/-- Insert into a `le`-sorted list (ascending). -/
def insertLe {α : Type} (le : α → α → Bool) (x : α) : List α → List α
  | [] => [x]
  | y :: ys => if le x y then x :: y :: ys else y :: insertLe le x ys

/-- Ascending sort; agrees with Python `sorted` whenever the input has no
duplicates under the order (the only way the program uses it). -/
def isort {α : Type} (le : α → α → Bool) : List α → List α
  | [] => []
  | x :: xs => insertLe le x (isort le xs)

/-- Python `str`/list comparison: lexicographic by code point. -/
def lexLe : List Char → List Char → Bool
  | [], _ => true
  | _ :: _, [] => false
  | a :: as, b :: bs =>
    if a.toNat < b.toNat then true
    else if b.toNat < a.toNat then false
    else lexLe as bs

/-! ## Aggregation and export -/

/-- `get_month_expenses_by_category` (`bot.py`, lines 140–159): per-category
sums over the month window, ordered by descending sum. -/
def getMonthExpensesByCategory (uid : ℕ) (t : Date) (db : DB) : List (List Char × ℚ) :=
  let rows := monthRows uid t db
  let cats := (rows.map (fun e => e.category)).dedup
  let totals := cats.map (fun c =>
    (c, (((rows.filter (fun e => decide (e.category = c))).map (fun e => e.amount)).sum)))
  isort (fun a b => decide (b.2 ≤ a.2)) totals

/-- `get_month_categories` (`bot.py`, lines 194–211): DISTINCT categories
of the window, ordered ascending. -/
def getMonthCategories (uid : ℕ) (t : Date) (db : DB) : List (List Char) :=
  isort lexLe ((monthRows uid t db).map (fun e => e.category)).dedup

/-- `dates_sorted` of `get_month_dates_and_categories`: the distinct dates
of the window rows, ascending. -/
def datesOf (uid : ℕ) (t : Date) (db : DB) : List Date :=
  isort dateLeB ((monthRows uid t db).map (fun e => e.dt)).dedup

/-- `categories_sorted` of `get_month_dates_and_categories`:
`sorted(categories)` — plain Python sort, i.e. by code point. -/
def categoriesOf (uid : ℕ) (t : Date) (db : DB) : List (List Char) :=
  isort lexLe ((monthRows uid t db).map (fun e => e.category)).dedup

/-- `data.get(dt_str, {}).get(cat)`: the summed cell for a (date, category)
pair, `none` when the SQL GROUP BY produced no group for the pair. -/
def cellOf (uid : ℕ) (t : Date) (db : DB) (d : Date) (c : List Char) : Option ℚ :=
  let g := (monthRows uid t db).filter (fun e => decide (e.dt = d) && decide (e.category = c))
  if g.isEmpty then none else some ((g.map (fun e => e.amount)).sum)

/-- Most-significant-first decimal digits of `n`, zero-padded to `w`. -/
def padNat (w n : ℕ) : List Char :=
  let s := Nat.toDigits 10 n
  List.replicate (w - s.length) '0' ++ s

/-- `datetime.strptime(dt_str, "%Y-%m-%d").strftime("%d.%m.%Y")`. -/
def fmtDMY (d : Date) : List Char :=
  padNat 2 d.d ++ '.' :: padNat 2 d.m ++ '.' :: padNat 4 d.y

/-- The worksheet written by `/export` and `/make`: the header row and one
row per date — first the date label, then one optional cell per sorted
category.  `none` when the handler bails out with "Нет данных" before
creating any workbook (`if not dates or not categories`). -/
def exportTable (uid : ℕ) (t : Date) (db : DB) :
    Option (List (List Char) × List (List Char × List (Option ℚ))) :=
  let ds := datesOf uid t db
  let cs := categoriesOf uid t db
  if ds.isEmpty || cs.isEmpty then none
  else some ("Дата".data :: cs,
    ds.map (fun d => (fmtDMY d, cs.map (fun c => cellOf uid t db d c))))

/-- What `/export` sends back: a document, or the "Нет данных" message. -/
inductive ExportOutcome
  | file (tbl : List (List Char) × List (List Char × List (Option ℚ)))
  | noData
deriving DecidableEq

/-- `cmd_export` (`bot.py`, lines 492–529). -/
def cmdExport (uid : ℕ) (t : Date) (db : DB) : ExportOutcome :=
  match exportTable uid t db with
  | some tbl => .file tbl
  | none => .noData

/-- `cmd_make` (`bot.py`, lines 534–586): build and send the export of the
pre-clear store (or only a "мало или нет" message when the month window is
empty), then run `clear_user_data`.  The artifact is a function of the
pre-clear `db`; the clear happens after the workbook is saved and sent. -/
def cmdMake (uid : ℕ) (t : Date) (db : DB) :
    Option (List (List Char) × List (List Char × List (Option ℚ))) × DB :=
  (exportTable uid t db, clearUserData uid db)

/-! ## Conversation state machine -/

/-- The aiogram FSM state per user: no state, `InsertState.waiting_data`,
or `LimitState.waiting_limits`. -/
inductive ChatState
  | idle
  | awaitingExpenses
  | awaitingLimits
deriving DecidableEq, Repr

/-- What the handler answers to a plain text message. -/
inductive Reply
  | added (items : List (List Char × ℚ))
  | limitsSet (items : List (List Char × ℚ))
  | errorRetry (msg : List Char)
  | ignored
deriving DecidableEq

/-- The common retry-hint phrase of both error replies. -/
def retryHintTag : List Char := "Пример правильного формата".data

/-- `f"⚠ Ошибка: {e}\n\nПример правильного формата:\n<code>Еда-500\nТакси-300\nКофе-200</code>"`. -/
def errReplyExpenses (e : ParseErr) : List Char :=
  "⚠ Ошибка: ".data ++ renderErr e ++ "\n\n".data ++ retryHintTag ++
    ":\n<code>Еда-500\nТакси-300\nКофе-200</code>".data

/-- `f"⚠ Ошибка: {e}\n\nПример правильного формата:\n<code>Еда-20000\nТакси-5000</code>"`. -/
def errReplyLimits (e : ParseErr) : List Char :=
  "⚠ Ошибка: ".data ++ renderErr e ++ "\n\n".data ++ retryHintTag ++
    ":\n<code>Еда-20000\nТакси-5000</code>".data

/-- One step of the conversation on an incoming plain-text message:
`process_insert_data` (lines 357–376) when awaiting expenses,
`process_limits` (lines 392–417) when awaiting limits, and `auto_insert`
(lines 591–617) when no state is set.  On a parse failure the handlers
`return` before `state.clear()`, so the FSM state is untouched. -/
def handleText (st : ChatState) (uid : ℕ) (t : Date) (text : List Char) (db : DB) :
    ChatState × DB × Reply :=
  match st with
  | .awaitingExpenses =>
    match parse text with
    | .error e => (.awaitingExpenses, db, .errorRetry (errReplyExpenses e))
    | .ok items => (.idle, addExpensesDb uid items t db, .added items)
  | .awaitingLimits =>
    match parse text with
    | .error e => (.awaitingLimits, db, .errorRetry (errReplyLimits e))
    | .ok items => (.idle, setLimitsDb uid items db, .limitsSet items)
  | .idle =>
    match parse text with
    | .error _ => (.idle, db, .ignored)
    | .ok items => (.idle, addExpensesDb uid items t db, .added items)

/-! ## Limit-setting operation sequences (for the upsert invariant) -/

/-- Replay a sequence of `set_limits_db` calls against a fresh store. -/
def applyLimitOps (ops : List (ℕ × List (List Char × ℚ))) : DB :=
  ops.foldl (fun db op => setLimitsDb op.1 op.2 db) initDb

/-- The limit rows stored for one (owner, category) pair. -/
def matchRows (o : ℕ) (c : List Char) (ls : List LimitRow) : List LimitRow :=
  ls.filter (fun r => decide (r.user = o) && decide (r.category = c))

/-- All amounts written for `(o, c)` by one `set_limits_db` item list. -/
def writesIn (o : ℕ) (c : List Char) (op : ℕ × List (List Char × ℚ)) : List ℚ :=
  if op.1 = o then (op.2.filter (fun p => decide (p.1 = c))).map (fun p => p.2) else []

/-- All amounts written for `(o, c)` across a sequence of operations, in
execution order. -/
def writesFor (o : ℕ) (c : List Char) (ops : List (ℕ × List (List Char × ℚ))) : List ℚ :=
  ops.foldr (fun op acc => writesIn o c op ++ acc) []

/-- Modelled from the spec: "sorted case-insensitively ascending" —
lower-case ASCII letters before comparing.  Used only to compare the
spec's wording with what the code computes. -/
def lowerAscii (c : Char) : Char :=
  if 65 ≤ c.toNat ∧ c.toNat ≤ 90 then Char.ofNat (c.toNat + 32) else c

/-- Modelled from the spec: the case-insensitive ascending order the spec
asserts for export columns. -/
def ciLe (a b : List Char) : Bool := lexLe (a.map lowerAscii) (b.map lowerAscii)

/-! ## Helper lemmas -/

theorem mem_monthRows {uid : ℕ} {t : Date} {db : DB} {e : Expense} :
    e ∈ monthRows uid t db ↔ e ∈ db.expenses ∧ e.user = uid ∧ monthFilter t e.dt = true := by
  unfold monthRows
  rw [List.mem_filter]
  simp [Bool.and_eq_true, and_assoc]

theorem daysInMonth_bounds (y m : ℕ) : 1 ≤ daysInMonth y m ∧ daysInMonth y m ≤ 31 := by
  unfold daysInMonth
  split_ifs <;> omega

theorem monthEnd_eq (t : Date) (hm1 : 1 ≤ t.m) :
    predDay (nextMonthStart t) =
      if t.m = 12 then Date.mk t.y 12 31 else Date.mk t.y t.m (daysInMonth t.y t.m) := by
  unfold nextMonthStart predDay
  by_cases h : t.m = 12
  · simp [h]
  · have h1 : ¬ (1 < (1 : ℕ)) := by omega
    have h2 : 1 < t.m + 1 := by omega
    simp [h, h1, h2]

theorem monthFilter_monthStart (t : Date) (hm1 : 1 ≤ t.m) :
    monthFilter t (monthStart t) = true := by
  have hb := daysInMonth_bounds t.y t.m
  unfold monthFilter getCurrentMonthRange dateLeB
  rw [monthEnd_eq t hm1]
  by_cases h : t.m = 12
  · simp [h, monthStart, dateKey]
  · simp [h, monthStart, dateKey]
    omega

theorem monthFilter_nextMonthStart (t : Date) (hm1 : 1 ≤ t.m) :
    monthFilter t (nextMonthStart t) = false := by
  have hb := daysInMonth_bounds t.y t.m
  unfold monthFilter getCurrentMonthRange dateLeB
  rw [monthEnd_eq t hm1]
  by_cases h : t.m = 12
  · simp [h, nextMonthStart, monthStart, dateKey]
    omega
  · simp [h, nextMonthStart, monthStart, dateKey]
    omega

/-! ## C3: the current-month window -/

/-- C3: every monthly query (stats, analytics, categories, export) filters
with `monthRows`; a record dated on the first day of the current month is
kept by that filter, and a record dated on the first day of the next month
is excluded. -/
theorem month_window_boundaries (t : Date) (hm1 : 1 ≤ t.m) (_hm2 : t.m ≤ 12)
    (uid : ℕ) (db : DB) (e : Expense) (he : e ∈ db.expenses) (hu : e.user = uid) :
    (e.dt = monthStart t → e ∈ monthRows uid t db) ∧
    (e.dt = nextMonthStart t → e ∉ monthRows uid t db) := by
  constructor
  · intro hdt
    exact mem_monthRows.mpr ⟨he, hu, by rw [hdt]; exact monthFilter_monthStart t hm1⟩
  · intro hdt hmem
    have h := (mem_monthRows.mp hmem).2.2
    rw [hdt, monthFilter_nextMonthStart t hm1] at h
    exact Bool.false_ne_true h

/-- Witness for C3 at May 2024: a record dated 2024-05-01 is aggregated,
one dated 2024-06-01 is not. -/
theorem month_window_boundaries_witness :
    (Expense.mk 7 (Date.mk 2024 5 1) "Еда".data 10 ∈
      monthRows 7 (Date.mk 2024 5 17)
        (DB.mk [Expense.mk 7 (Date.mk 2024 5 1) "Еда".data 10,
                Expense.mk 7 (Date.mk 2024 6 1) "Еда".data 20] [])) ∧
    (Expense.mk 7 (Date.mk 2024 6 1) "Еда".data 20 ∉
      monthRows 7 (Date.mk 2024 5 17)
        (DB.mk [Expense.mk 7 (Date.mk 2024 5 1) "Еда".data 10,
                Expense.mk 7 (Date.mk 2024 6 1) "Еда".data 20] [])) := by
  constructor
  · exact (month_window_boundaries (Date.mk 2024 5 17) (by decide) (by decide) 7
      (DB.mk [Expense.mk 7 (Date.mk 2024 5 1) "Еда".data 10,
              Expense.mk 7 (Date.mk 2024 6 1) "Еда".data 20] [])
      (Expense.mk 7 (Date.mk 2024 5 1) "Еда".data 10)
      (by simp) rfl).1 rfl
  · exact (month_window_boundaries (Date.mk 2024 5 17) (by decide) (by decide) 7
      (DB.mk [Expense.mk 7 (Date.mk 2024 5 1) "Еда".data 10,
              Expense.mk 7 (Date.mk 2024 6 1) "Еда".data 20] [])
      (Expense.mk 7 (Date.mk 2024 6 1) "Еда".data 20)
      (by simp) rfl).2 rfl

/-! ## C9: the clear operation touches nothing but the owner's expenses -/

/-- C9: `clear_user_data` deletes exactly the owner's expense rows: the
limits table is untouched, the owner's listing becomes empty, and every
other owner's listing is unchanged. -/
theorem clear_user_data_frame (uid : ℕ) (db : DB) :
    (clearUserData uid db).limits = db.limits ∧
    listExpenses uid (clearUserData uid db) = [] ∧
    ∀ o, o ≠ uid → listExpenses o (clearUserData uid db) = listExpenses o db := by
  refine ⟨rfl, ?_, ?_⟩
  · unfold listExpenses clearUserData
    simp only [List.filter_filter]
    apply List.filter_eq_nil_iff.mpr
    intro e _
    by_cases h : e.user = uid <;> simp [h]
  · intro o ho
    unfold listExpenses clearUserData
    simp only [List.filter_filter]
    apply List.filter_congr
    intro e _
    by_cases h : e.user = o
    · simp [h, ho]
    · simp [h]

/-- Witness for C9: owner 2's rows and all limits survive owner 1's clear. -/
theorem clear_user_data_frame_witness :
    (clearUserData 1 (DB.mk [Expense.mk 1 (Date.mk 2024 5 2) "Еда".data 5,
        Expense.mk 2 (Date.mk 2024 5 3) "Такси".data 7] [LimitRow.mk 1 "Еда".data 100])).limits
      = [LimitRow.mk 1 "Еда".data 100] ∧
    listExpenses 1 (clearUserData 1 (DB.mk [Expense.mk 1 (Date.mk 2024 5 2) "Еда".data 5,
        Expense.mk 2 (Date.mk 2024 5 3) "Такси".data 7] [LimitRow.mk 1 "Еда".data 100])) = [] ∧
    listExpenses 2 (clearUserData 1 (DB.mk [Expense.mk 1 (Date.mk 2024 5 2) "Еда".data 5,
        Expense.mk 2 (Date.mk 2024 5 3) "Такси".data 7] [LimitRow.mk 1 "Еда".data 100]))
      = listExpenses 2 (DB.mk [Expense.mk 1 (Date.mk 2024 5 2) "Еда".data 5,
        Expense.mk 2 (Date.mk 2024 5 3) "Такси".data 7] [LimitRow.mk 1 "Еда".data 100]) := by
  have h := clear_user_data_frame 1 (DB.mk [Expense.mk 1 (Date.mk 2024 5 2) "Еда".data 5,
        Expense.mk 2 (Date.mk 2024 5 3) "Такси".data 7] [LimitRow.mk 1 "Еда".data 100])
  exact ⟨h.1, h.2.1, h.2.2 2 (by decide)⟩

/-! ## C5: export with an empty month window -/

theorem insertLe_ne_nil {α : Type} (le : α → α → Bool) (x : α) (l : List α) :
    insertLe le x l ≠ [] := by
  cases l with
  | nil => simp [insertLe]
  | cons y ys =>
    unfold insertLe
    split_ifs <;> simp

theorem isort_eq_nil_iff {α : Type} (le : α → α → Bool) (l : List α) :
    isort le l = [] ↔ l = [] := by
  cases l with
  | nil => simp [isort]
  | cons x xs => simp [isort, insertLe_ne_nil]

theorem exportTable_eq_none_iff (uid : ℕ) (t : Date) (db : DB) :
    exportTable uid t db = none ↔ monthRows uid t db = [] := by
  unfold exportTable
  by_cases h : monthRows uid t db = []
  · simp [datesOf, categoriesOf, h, isort]
  · have hds : ¬ (datesOf uid t db).isEmpty = true := by
      rw [List.isEmpty_iff]
      unfold datesOf
      rw [isort_eq_nil_iff, List.dedup_eq_nil, List.map_eq_nil_iff]
      exact h
    have hcs : ¬ (categoriesOf uid t db).isEmpty = true := by
      rw [List.isEmpty_iff]
      unfold categoriesOf
      rw [isort_eq_nil_iff, List.dedup_eq_nil, List.map_eq_nil_iff]
      exact h
    simp [hds, hcs, h]

/-- C5 (amended): with zero records in the current-month window, `/export`
does not build a workbook at all — it answers the "Нет данных" message
instead of sending a file (and raises no error); with at least one record
it sends a file. -/
theorem cmd_export_no_data (uid : ℕ) (t : Date) (db : DB) :
    cmdExport uid t db = ExportOutcome.noData ↔ monthRows uid t db = [] := by
  unfold cmdExport
  rw [← exportTable_eq_none_iff]
  cases h : exportTable uid t db <;> simp [h]

/-- Counterexample for C5 as stated: for an owner with zero records the
claim promises a minimal artifact with just the header row, but `/export`
produces no file at all. -/
theorem cmd_export_empty_produces_no_file :
    cmdExport 1 (Date.mk 2024 5 17) (DB.mk [] []) = ExportOutcome.noData ∧
    ¬ ∃ tbl, cmdExport 1 (Date.mk 2024 5 17) (DB.mk [] []) = ExportOutcome.file tbl := by
  constructor
  · rfl
  · rintro ⟨tbl, h⟩
    rw [show cmdExport 1 (Date.mk 2024 5 17) (DB.mk [] []) = ExportOutcome.noData from rfl] at h
    exact ExportOutcome.noConfusion h

/-! ## C6: the destructive export `/make` -/

theorem monthRows_clear_self (uid : ℕ) (t : Date) (db : DB) :
    monthRows uid t (clearUserData uid db) = [] := by
  unfold monthRows clearUserData
  simp only [List.filter_filter]
  apply List.filter_eq_nil_iff.mpr
  intro e _
  by_cases h : e.user = uid <;> simp [h]

/-- C6 (amended): after `/make`, the owner's expense rows are all deleted
while other owners' rows and the whole limits table survive; the artifact
(when produced) is the month export of the *pre-clear* store — it is built
and sent before `clear_user_data` runs, and recomputing the export after
the clear yields nothing; a non-empty current-month window guarantees an
artifact.  Records outside the current month are deleted without ever
appearing in the artifact. -/
theorem cmd_make_clears_after_export (uid : ℕ) (t : Date) (db : DB) :
    listExpenses uid (cmdMake uid t db).2 = [] ∧
    (∀ o, o ≠ uid → listExpenses o (cmdMake uid t db).2 = listExpenses o db) ∧
    (cmdMake uid t db).2.limits = db.limits ∧
    (cmdMake uid t db).1 = exportTable uid t db ∧
    exportTable uid t (cmdMake uid t db).2 = none ∧
    (monthRows uid t db ≠ [] → ∃ tbl, (cmdMake uid t db).1 = some tbl) := by
  have hframe := clear_user_data_frame uid db
  refine ⟨hframe.2.1, hframe.2.2, hframe.1, rfl, ?_, ?_⟩
  · exact (exportTable_eq_none_iff uid t (clearUserData uid db)).mpr
      (monthRows_clear_self uid t db)
  · intro h
    rcases hex : exportTable uid t db with _ | tbl
    · exact absurd ((exportTable_eq_none_iff uid t db).mp hex) h
    · exact ⟨tbl, hex⟩

/-- Witness for C6 (amended) on a store with one in-window record of owner
1 and one record of owner 2. -/
theorem cmd_make_clears_after_export_witness :
    listExpenses 1 (cmdMake 1 (Date.mk 2024 5 17)
      (DB.mk [Expense.mk 1 (Date.mk 2024 5 2) "Еда".data 5,
              Expense.mk 2 (Date.mk 2024 5 3) "Такси".data 7] [])).2 = [] ∧
    listExpenses 2 (cmdMake 1 (Date.mk 2024 5 17)
      (DB.mk [Expense.mk 1 (Date.mk 2024 5 2) "Еда".data 5,
              Expense.mk 2 (Date.mk 2024 5 3) "Такси".data 7] [])).2
      = [Expense.mk 2 (Date.mk 2024 5 3) "Такси".data 7] ∧
    (∃ tbl, (cmdMake 1 (Date.mk 2024 5 17)
      (DB.mk [Expense.mk 1 (Date.mk 2024 5 2) "Еда".data 5,
              Expense.mk 2 (Date.mk 2024 5 3) "Такси".data 7] [])).1 = some tbl) := by
  have h := cmd_make_clears_after_export 1 (Date.mk 2024 5 17)
      (DB.mk [Expense.mk 1 (Date.mk 2024 5 2) "Еда".data 5,
              Expense.mk 2 (Date.mk 2024 5 3) "Такси".data 7] [])
  refine ⟨h.1, ?_, h.2.2.2.2.2 (by decide)⟩
  rw [h.2.1 2 (by decide)]
  decide

/-- Counterexample for C6 as stated: owner 1's only record is dated in a
previous month; `/make` deletes it while producing *no* artifact, so the
artifact does not "reflect all of the owner's pre-clear expense data". -/
theorem cmd_make_loses_out_of_window_data :
    (DB.mk [Expense.mk 1 (Date.mk 2024 1 5) "Еда".data 100] []).expenses ≠ [] ∧
    (cmdMake 1 (Date.mk 2024 2 10)
      (DB.mk [Expense.mk 1 (Date.mk 2024 1 5) "Еда".data 100] [])).1 = none ∧
    (cmdMake 1 (Date.mk 2024 2 10)
      (DB.mk [Expense.mk 1 (Date.mk 2024 1 5) "Еда".data 100] [])).2.expenses = [] := by
  refine ⟨by decide, ?_, by decide⟩
  decide

/-! ## C7: the limits upsert invariant -/

/-- "Last write or default": the value a register holds after replaying
the writes `w` on top of a state that showed `d`. -/
def olastD {α : Type} (w : List α) (d : List α) : List α :=
  match w.getLast? with
  | none => d
  | some v => [v]

theorem olastD_cons {α : Type} (x : α) (w d : List α) :
    olastD (x :: w) d = olastD w [x] := by
  cases w with
  | nil => rfl
  | cons y ys =>
    rcases hys : (y :: ys).getLast? with _ | v
    · exact absurd hys (by simp)
    · simp [olastD, List.getLast?_cons_cons, hys]

theorem olastD_append {α : Type} (w1 w2 d : List α) :
    olastD (w1 ++ w2) d = olastD w2 (olastD w1 d) := by
  unfold olastD
  rw [List.getLast?_append]
  rcases hys : w2.getLast? with _ | v
  · simp [hys, Option.none_or]
  · simp [hys, Option.or]

theorem matchRows_any_iff (o : ℕ) (c : List Char) (ls : List LimitRow) :
    ls.any (fun r => decide (r.user = o) && decide (r.category = c)) = true ↔
    matchRows o c ls ≠ [] := by
  rw [List.any_eq_true]
  unfold matchRows
  rw [Ne, List.filter_eq_nil_iff]
  push_neg
  simp

theorem amounts_matchRows_upsert (o : ℕ) (c : List Char) (u : ℕ) (cat : List Char) (amt : ℚ)
    (ls : List LimitRow) (h : (matchRows o c ls).length ≤ 1) :
    (matchRows o c (upsertLimit u cat amt ls)).map (fun r => r.limitAmount)
      = if u = o ∧ cat = c then [amt]
        else (matchRows o c ls).map (fun r => r.limitAmount) := by
  unfold upsertLimit
  by_cases hany : ls.any (fun r => decide (r.user = u) && decide (r.category = cat)) = true
  · rw [if_pos hany]
    have hmap : matchRows o c (ls.map (fun r =>
        if r.user = u ∧ r.category = cat then { r with limitAmount := amt } else r))
        = (matchRows o c ls).map (fun r =>
            if r.user = u ∧ r.category = cat then { r with limitAmount := amt } else r) := by
      unfold matchRows
      rw [List.filter_map]
      congr 1
      apply List.filter_congr
      intro r _
      by_cases hc : r.user = u ∧ r.category = cat <;> simp [hc]
    rw [hmap]
    by_cases hoc : u = o ∧ cat = c
    · rw [if_pos hoc]
      have hne : matchRows o c ls ≠ [] := by
        rw [← matchRows_any_iff]
        rw [List.any_eq_true] at hany ⊢
        obtain ⟨r, hr, hp⟩ := hany
        refine ⟨r, hr, ?_⟩
        simp only [Bool.and_eq_true, decide_eq_true_eq] at hp ⊢
        exact ⟨hoc.1 ▸ hp.1, hoc.2 ▸ hp.2⟩
      rcases hrows : matchRows o c ls with _ | ⟨r, rest⟩
      · exact absurd hrows hne
      · have hlen : rest = [] := by
          have h2 := h
          rw [hrows] at h2
          simp only [List.length_cons] at h2
          exact List.eq_nil_of_length_eq_zero (by omega)
        subst hlen
        have hr : r.user = o ∧ r.category = c := by
          have hmem : r ∈ matchRows o c ls := by rw [hrows]; exact List.mem_singleton_self r
          unfold matchRows at hmem
          have := List.of_mem_filter hmem
          simpa using this
        simp [hoc.1 ▸ hr.1, hoc.2 ▸ hr.2, hr.1, hr.2]
    · rw [if_neg hoc]
      rw [List.map_map]
      apply List.map_congr_left
      intro r hmem
      have hrp : r.user = o ∧ r.category = c := by
        unfold matchRows at hmem
        have := List.of_mem_filter hmem
        simpa using this
      have : ¬ (r.user = u ∧ r.category = cat) := by
        rintro ⟨h1, h2⟩
        exact hoc ⟨by rw [← h1, hrp.1], by rw [← h2, hrp.2]⟩
      simp [this]
  · rw [if_neg hany]
    unfold matchRows
    rw [List.filter_append]
    by_cases hoc : u = o ∧ cat = c
    · rw [if_pos hoc]
      have hnil : matchRows o c ls = [] := by
        by_contra hne
        apply hany
        have h2 := (matchRows_any_iff o c ls).mpr hne
        rw [List.any_eq_true] at h2 ⊢
        obtain ⟨r, hr, hp⟩ := h2
        refine ⟨r, hr, ?_⟩
        simp only [Bool.and_eq_true, decide_eq_true_eq] at hp ⊢
        exact ⟨by rw [hoc.1]; exact hp.1, by rw [hoc.2]; exact hp.2⟩
      unfold matchRows at hnil
      rw [hnil]
      simp [hoc.1, hoc.2]
    · rw [if_neg hoc]
      have : ([(LimitRow.mk u cat amt)].filter
          (fun r => decide (r.user = o) && decide (r.category = c))) = [] := by
        simp only [List.filter]
        have : ¬ (u = o ∧ cat = c) := hoc
        by_cases h1 : u = o <;> by_cases h2 : cat = c <;> simp_all
      rw [this, List.append_nil]

theorem len_matchRows_upsert (o : ℕ) (c : List Char) (u : ℕ) (cat : List Char) (amt : ℚ)
    (ls : List LimitRow) (h : (matchRows o c ls).length ≤ 1) :
    (matchRows o c (upsertLimit u cat amt ls)).length ≤ 1 := by
  have := congrArg List.length (amounts_matchRows_upsert o c u cat amt ls h)
  rw [List.length_map] at this
  rw [this]
  split_ifs
  · simp
  · rw [List.length_map]
    exact h

/-- The per-pair uniqueness invariant of the `limits` table. -/
def LimitsUnique (ls : List LimitRow) : Prop :=
  ∀ o c, (matchRows o c ls).length ≤ 1

theorem limits_fold_items (u : ℕ) (items : List (List Char × ℚ)) :
    ∀ ls : List LimitRow, LimitsUnique ls →
    LimitsUnique (items.foldl (fun acc p => upsertLimit u p.1 p.2 acc) ls) ∧
    ∀ o c,
      (matchRows o c (items.foldl (fun acc p => upsertLimit u p.1 p.2 acc) ls)).map
          (fun r => r.limitAmount)
        = olastD (writesIn o c (u, items)) ((matchRows o c ls).map (fun r => r.limitAmount)) := by
  induction items with
  | nil =>
    intro ls hInv
    refine ⟨hInv, ?_⟩
    intro o c
    simp [writesIn, olastD]
  | cons p ps ih =>
    intro ls hInv
    have hInv' : LimitsUnique (upsertLimit u p.1 p.2 ls) := by
      intro o c
      exact len_matchRows_upsert o c u p.1 p.2 ls (hInv o c)
    obtain ⟨ihInv, ihA⟩ := ih (upsertLimit u p.1 p.2 ls) hInv'
    refine ⟨ihInv, ?_⟩
    intro o c
    rw [List.foldl_cons] at *
    rw [ihA o c, amounts_matchRows_upsert o c u p.1 p.2 ls (hInv o c)]
    by_cases ho : u = o
    · subst ho
      by_cases hc : p.1 = c
      · rw [if_pos ⟨rfl, hc⟩]
        have hw1 : writesIn u c (u, p :: ps) = p.2 :: writesIn u c (u, ps) := by
          simp [writesIn, hc]
        rw [hw1, olastD_cons]
      · rw [if_neg (by simp [hc])]
        have hw1 : writesIn u c (u, p :: ps) = writesIn u c (u, ps) := by
          simp [writesIn, hc]
        rw [hw1]
    · rw [if_neg (fun hh => ho hh.1)]
      have hw1 : writesIn o c (u, p :: ps) = writesIn o c (u, ps) := by
        simp [writesIn, ho]
      rw [hw1]

theorem limits_fold_ops (ops : List (ℕ × List (List Char × ℚ))) :
    ∀ db : DB, LimitsUnique db.limits →
    LimitsUnique ((ops.foldl (fun db op => setLimitsDb op.1 op.2 db) db).limits) ∧
    ∀ o c,
      (matchRows o c ((ops.foldl (fun db op => setLimitsDb op.1 op.2 db) db).limits)).map
          (fun r => r.limitAmount)
        = olastD (writesFor o c ops) ((matchRows o c db.limits).map (fun r => r.limitAmount)) := by
  induction ops with
  | nil =>
    intro db hInv
    refine ⟨hInv, ?_⟩
    intro o c
    simp [writesFor, olastD]
  | cons op ops ih =>
    intro db hInv
    have hstep := limits_fold_items op.1 op.2 db.limits hInv
    have hlim : (setLimitsDb op.1 op.2 db).limits
        = op.2.foldl (fun acc p => upsertLimit op.1 p.1 p.2 acc) db.limits := rfl
    have hInv' : LimitsUnique ((setLimitsDb op.1 op.2 db).limits) := by
      rw [hlim]; exact hstep.1
    obtain ⟨ihInv, ihA⟩ := ih (setLimitsDb op.1 op.2 db) hInv'
    refine ⟨ihInv, ?_⟩
    intro o c
    rw [List.foldl_cons, ihA o c]
    have hw : writesFor o c (op :: ops) = writesIn o c op ++ writesFor o c ops := rfl
    rw [hw, olastD_append]
    congr 1
    rw [hlim]
    have := hstep.2 o c
    rcases op with ⟨u, items⟩
    exact this

/-- C7: starting from a fresh store, after any sequence of `set_limits_db`
operations each (owner, category) pair has at most one limit row, and its
amount is exactly the last value written for the pair (no row at all when
the pair was never written). -/
theorem limits_last_write_unique (ops : List (ℕ × List (List Char × ℚ)))
    (o : ℕ) (c : List Char) :
    (matchRows o c (applyLimitOps ops).limits).length ≤ 1 ∧
    (matchRows o c (applyLimitOps ops).limits).map (fun r => r.limitAmount)
      = ((writesFor o c ops).getLast?).toList := by
  have hInv0 : LimitsUnique (initDb.limits) := by
    intro o c
    simp [initDb, matchRows]
  obtain ⟨hInv, hA⟩ := limits_fold_ops ops initDb hInv0
  have hbase : (matchRows o c initDb.limits).map (fun r => r.limitAmount) = [] := by
    simp [initDb, matchRows]
  unfold applyLimitOps
  constructor
  · have := congrArg List.length (hA o c)
    rw [List.length_map] at this
    rw [this, hbase]
    unfold olastD
    rcases (writesFor o c ops).getLast? with _ | v <;> simp
  · rw [hA o c, hbase]
    unfold olastD
    rcases (writesFor o c ops).getLast? with _ | v <;> simp

/-- Witness for C7: setting the same limit twice leaves exactly one row
holding that value (idempotence instance from the claim text). -/
theorem limits_last_write_unique_witness :
    (matchRows 1 "Еда".data
      (applyLimitOps [(1, [("Еда".data, 100)]), (1, [("Еда".data, 100)])]).limits).length = 1 ∧
    (matchRows 1 "Еда".data
      (applyLimitOps [(1, [("Еда".data, 100)]), (1, [("Еда".data, 100)])]).limits).map
        (fun r => r.limitAmount) = [(100 : ℚ)] := by
  have h := limits_last_write_unique [(1, [("Еда".data, 100)]), (1, [("Еда".data, 100)])]
    1 "Еда".data
  refine ⟨?_, ?_⟩
  · have h2 := h.2
    have : ((writesFor 1 "Еда".data
        [(1, [("Еда".data, 100)]), (1, [("Еда".data, 100)])]).getLast?).toList
        = [(100 : ℚ)] := by decide
    rw [this] at h2
    have := congrArg List.length h2
    rw [List.length_map] at this
    simpa using this
  · rw [h.2]
    decide

/-! ## Sorting correctness -/

theorem mem_insertLe {α : Type} (le : α → α → Bool) (x a : α) (l : List α) :
    a ∈ insertLe le x l ↔ a = x ∨ a ∈ l := by
  induction l with
  | nil => simp [insertLe]
  | cons y ys ih =>
    unfold insertLe
    split_ifs with h
    · simp
    · rw [List.mem_cons, ih, List.mem_cons]
      tauto

theorem pairwise_insertLe {α : Type} (le : α → α → Bool)
    (htot : ∀ a b, le a b = true ∨ le b a = true)
    (htr : ∀ a b c, le a b = true → le b c = true → le a c = true)
    (x : α) (l : List α) (hl : l.Pairwise (fun a b => le a b = true)) :
    (insertLe le x l).Pairwise (fun a b => le a b = true) := by
  induction l with
  | nil => simp [insertLe]
  | cons y ys ih =>
    rw [List.pairwise_cons] at hl
    unfold insertLe
    split_ifs with h
    · rw [List.pairwise_cons]
      refine ⟨?_, List.pairwise_cons.mpr hl⟩
      intro b hb
      rcases List.mem_cons.mp hb with rfl | hb
      · exact h
      · exact htr x y b h (hl.1 b hb)
    · rw [List.pairwise_cons]
      refine ⟨?_, ih hl.2⟩
      intro b hb
      rcases (mem_insertLe le x b ys).mp hb with rfl | hb
      · rcases htot b y with h2 | h2
        · exact absurd h2 h
        · exact h2
      · exact hl.1 b hb

theorem mem_isort {α : Type} (le : α → α → Bool) (a : α) (l : List α) :
    a ∈ isort le l ↔ a ∈ l := by
  induction l with
  | nil => simp [isort]
  | cons x xs ih =>
    unfold isort
    rw [mem_insertLe, ih, List.mem_cons]

theorem pairwise_isort {α : Type} (le : α → α → Bool)
    (htot : ∀ a b, le a b = true ∨ le b a = true)
    (htr : ∀ a b c, le a b = true → le b c = true → le a c = true)
    (l : List α) : (isort le l).Pairwise (fun a b => le a b = true) := by
  induction l with
  | nil => simp [isort]
  | cons x xs ih => exact pairwise_insertLe le htot htr x (isort le xs) ih

theorem nodup_insertLe {α : Type} (le : α → α → Bool) (x : α) (l : List α)
    (hx : x ∉ l) (hl : l.Nodup) : (insertLe le x l).Nodup := by
  induction l with
  | nil => simp [insertLe]
  | cons y ys ih =>
    rw [List.nodup_cons] at hl
    unfold insertLe
    split_ifs with h
    · exact List.nodup_cons.mpr ⟨hx, List.nodup_cons.mpr hl⟩
    · refine List.nodup_cons.mpr ⟨?_, ih (fun hm => hx (List.mem_cons_of_mem y hm)) hl.2⟩
      intro hm
      rcases (mem_insertLe le x y ys).mp hm with rfl | hm
      · exact hx (List.mem_cons_self y ys)
      · exact hl.1 hm

theorem nodup_isort {α : Type} (le : α → α → Bool) (l : List α) (hl : l.Nodup) :
    (isort le l).Nodup := by
  induction l with
  | nil => simp [isort]
  | cons x xs ih =>
    rw [List.nodup_cons] at hl
    exact nodup_insertLe le x (isort le xs)
      (fun hm => hl.1 ((mem_isort le x xs).mp hm)) (ih hl.2)

theorem lexLe_total (a b : List Char) : lexLe a b = true ∨ lexLe b a = true := by
  induction a generalizing b with
  | nil => left; simp [lexLe]
  | cons x xs ih =>
    cases b with
    | nil => right; simp [lexLe]
    | cons y ys =>
      unfold lexLe
      by_cases h1 : x.toNat < y.toNat
      · left; simp [h1]
      · by_cases h2 : y.toNat < x.toNat
        · right; simp [h2]
        · rcases ih ys with h | h
          · left; simp [h1, h2, h]
          · right; simp [h1, h2, h]

theorem lexLe_trans (a b c : List Char) (h1 : lexLe a b = true) (h2 : lexLe b c = true) :
    lexLe a c = true := by
  induction a generalizing b c with
  | nil => simp [lexLe]
  | cons x xs ih =>
    cases b with
    | nil => simp [lexLe] at h1
    | cons y ys =>
      cases c with
      | nil => simp [lexLe] at h2
      | cons z zs =>
        unfold lexLe at h1 h2 ⊢
        by_cases h1xy : x.toNat < y.toNat
        · by_cases h2yz : y.toNat < z.toNat
          · have hxz : x.toNat < z.toNat := by omega
            simp [hxz]
          · by_cases h3 : z.toNat < y.toNat
            · rw [if_neg h2yz, if_pos h3] at h2
              exact absurd h2 (by simp)
            · have hxz : x.toNat < z.toNat := by omega
              simp [hxz]
        · by_cases h1yx : y.toNat < x.toNat
          · rw [if_neg h1xy, if_pos h1yx] at h1
            exact absurd h1 (by simp)
          · rw [if_neg h1xy, if_neg h1yx] at h1
            by_cases h2yz : y.toNat < z.toNat
            · have hxz : x.toNat < z.toNat := by omega
              simp [hxz]
            · by_cases h3 : z.toNat < y.toNat
              · rw [if_neg h2yz, if_pos h3] at h2
                exact absurd h2 (by simp)
              · rw [if_neg h2yz, if_neg h3] at h2
                have hA : ¬ x.toNat < z.toNat := by omega
                have hB : ¬ z.toNat < x.toNat := by omega
                rw [if_neg hA, if_neg hB]
                exact ih ys zs h1 h2

theorem dateLeB_total (a b : Date) : dateLeB a b = true ∨ dateLeB b a = true := by
  unfold dateLeB
  simp only [decide_eq_true_eq]
  omega

theorem dateLeB_trans (a b c : Date) (h1 : dateLeB a b = true) (h2 : dateLeB b c = true) :
    dateLeB a c = true := by
  unfold dateLeB at *
  simp only [decide_eq_true_eq] at *
  omega

/-! ## C4: the shape of the exported table -/

theorem datesOf_isEmpty_false (uid : ℕ) (t : Date) (db : DB)
    (h : monthRows uid t db ≠ []) : (datesOf uid t db).isEmpty = false := by
  rw [List.isEmpty_eq_false_iff_exists_mem]
  rcases List.exists_mem_of_ne_nil _ h with ⟨e, he⟩
  exact ⟨e.dt, by
    unfold datesOf
    rw [mem_isort, List.mem_dedup]
    exact List.mem_map_of_mem (fun e => e.dt) he⟩

theorem categoriesOf_isEmpty_false (uid : ℕ) (t : Date) (db : DB)
    (h : monthRows uid t db ≠ []) : (categoriesOf uid t db).isEmpty = false := by
  rw [List.isEmpty_eq_false_iff_exists_mem]
  rcases List.exists_mem_of_ne_nil _ h with ⟨e, he⟩
  exact ⟨e.category, by
    unfold categoriesOf
    rw [mem_isort, List.mem_dedup]
    exact List.mem_map_of_mem (fun e => e.category) he⟩

theorem mem_categoriesOf (uid : ℕ) (t : Date) (db : DB) (c : List Char) :
    c ∈ categoriesOf uid t db ↔ ∃ e ∈ monthRows uid t db, e.category = c := by
  unfold categoriesOf
  rw [mem_isort, List.mem_dedup, List.mem_map]

theorem mem_datesOf (uid : ℕ) (t : Date) (db : DB) (d : Date) :
    d ∈ datesOf uid t db ↔ ∃ e ∈ monthRows uid t db, e.dt = d := by
  unfold datesOf
  rw [mem_isort, List.mem_dedup, List.mem_map]

theorem mem_cellRows (uid : ℕ) (t : Date) (db : DB) (d : Date) (c : List Char) (e : Expense) :
    e ∈ (monthRows uid t db).filter (fun e => decide (e.dt = d) && decide (e.category = c)) ↔
      e ∈ db.expenses ∧ e.user = uid ∧ monthFilter t e.dt = true ∧ e.dt = d ∧ e.category = c := by
  rw [List.mem_filter, mem_monthRows]
  simp [and_assoc]

theorem cellOf_none_iff (uid : ℕ) (t : Date) (db : DB) (d : Date) (c : List Char) :
    cellOf uid t db d c = none ↔
      ¬ ∃ e ∈ db.expenses, e.user = uid ∧ monthFilter t e.dt = true ∧ e.dt = d ∧ e.category = c := by
  unfold cellOf
  by_cases h : ((monthRows uid t db).filter
      (fun e => decide (e.dt = d) && decide (e.category = c))).isEmpty
  · simp only [h, if_true]
    constructor
    · intro _
      rintro ⟨e, he, hrest⟩
      rw [List.isEmpty_iff] at h
      have : e ∈ (monthRows uid t db).filter
          (fun e => decide (e.dt = d) && decide (e.category = c)) :=
        (mem_cellRows uid t db d c e).mpr ⟨he, hrest⟩
      rw [h] at this
      exact absurd this (List.not_mem_nil e)
    · intro _
      trivial
  · simp only [h, if_false]
    constructor
    · intro hcontra
      exact absurd hcontra (by simp)
    · intro hne
      exfalso
      apply h
      rw [List.isEmpty_iff, List.filter_eq_nil_iff]
      intro e he
      intro hp
      apply hne
      simp only [Bool.and_eq_true, decide_eq_true_eq] at hp
      have := mem_monthRows.mp he
      exact ⟨e, this.1, this.2.1, this.2.2, hp.1, hp.2⟩

theorem cellOf_some_sum (uid : ℕ) (t : Date) (db : DB) (d : Date) (c : List Char) (s : ℚ)
    (h : cellOf uid t db d c = some s) :
    s = ((db.expenses.filter (fun e => decide (e.user = uid) && monthFilter t e.dt &&
          (decide (e.dt = d) && decide (e.category = c)))).map (fun e => e.amount)).sum := by
  simp only [cellOf] at h
  split_ifs at h with hemp
  have hfil : (monthRows uid t db).filter
      (fun e => decide (e.dt = d) && decide (e.category = c))
      = db.expenses.filter (fun e => decide (e.user = uid) && monthFilter t e.dt &&
          (decide (e.dt = d) && decide (e.category = c))) := by
    unfold monthRows
    rw [List.filter_filter]
    exact List.filter_congr (fun e _ => Bool.and_comm _ _)
  rw [hfil] at h
  exact (Option.some_injective ℚ h).symm

/-- C4 (amended): for an owner with at least one current-month record the
export is a table whose header is the date column followed by the distinct
window categories sorted ascending **by code point** (Python's default
`sorted`, not case-insensitive), whose rows are the distinct window dates
ascending, each labelled `DD.MM.YYYY`, and whose cell for (date, category)
is the sum of that pair's amounts, or blank (`none`, never `some 0`
written for an absent pair) when the pair has no expense rows. -/
theorem export_table_shape (uid : ℕ) (t : Date) (db : DB)
    (h : monthRows uid t db ≠ []) :
    ∃ cols rows, exportTable uid t db = some (cols, rows) ∧
      cols = "Дата".data :: categoriesOf uid t db ∧
      (categoriesOf uid t db).Pairwise (fun a b => lexLe a b = true) ∧
      (categoriesOf uid t db).Nodup ∧
      (∀ c, c ∈ categoriesOf uid t db ↔ ∃ e ∈ monthRows uid t db, e.category = c) ∧
      rows = (datesOf uid t db).map (fun d =>
        (fmtDMY d, (categoriesOf uid t db).map (fun c => cellOf uid t db d c))) ∧
      (datesOf uid t db).Pairwise (fun a b => dateLeB a b = true) ∧
      (datesOf uid t db).Nodup ∧
      (∀ d, d ∈ datesOf uid t db ↔ ∃ e ∈ monthRows uid t db, e.dt = d) ∧
      ∀ d c,
        (cellOf uid t db d c = none ↔
          ¬ ∃ e ∈ db.expenses, e.user = uid ∧ monthFilter t e.dt = true ∧
            e.dt = d ∧ e.category = c) ∧
        ∀ s, cellOf uid t db d c = some s →
          s = ((db.expenses.filter (fun e => decide (e.user = uid) && monthFilter t e.dt &&
                (decide (e.dt = d) && decide (e.category = c)))).map (fun e => e.amount)).sum := by
  refine ⟨"Дата".data :: categoriesOf uid t db,
    (datesOf uid t db).map (fun d =>
      (fmtDMY d, (categoriesOf uid t db).map (fun c => cellOf uid t db d c))), ?_, rfl,
    ?_, ?_, fun c => mem_categoriesOf uid t db c, rfl, ?_, ?_,
    fun d => mem_datesOf uid t db d, ?_⟩
  · simp only [exportTable]
    rw [datesOf_isEmpty_false uid t db h, categoriesOf_isEmpty_false uid t db h]
    simp
  · exact pairwise_isort lexLe lexLe_total lexLe_trans _
  · exact nodup_isort lexLe _ (List.nodup_dedup _)
  · exact pairwise_isort dateLeB dateLeB_total dateLeB_trans _
  · exact nodup_isort dateLeB _ (List.nodup_dedup _)
  · intro d c
    exact ⟨cellOf_none_iff uid t db d c, fun s hs => cellOf_some_sum uid t db d c s hs⟩

/-- Witness for C4 (amended) on a two-category store. -/
theorem export_table_shape_witness :
    ∃ cols rows,
      exportTable 1 (Date.mk 2024 1 10)
        (DB.mk [Expense.mk 1 (Date.mk 2024 1 5) "Banana".data 1,
                Expense.mk 1 (Date.mk 2024 1 6) "apple".data 2] []) = some (cols, rows) ∧
      cols = "Дата".data :: categoriesOf 1 (Date.mk 2024 1 10)
        (DB.mk [Expense.mk 1 (Date.mk 2024 1 5) "Banana".data 1,
                Expense.mk 1 (Date.mk 2024 1 6) "apple".data 2] []) := by
  have h := export_table_shape 1 (Date.mk 2024 1 10)
    (DB.mk [Expense.mk 1 (Date.mk 2024 1 5) "Banana".data 1,
            Expense.mk 1 (Date.mk 2024 1 6) "apple".data 2] []) (by decide)
  obtain ⟨cols, rows, h1, h2, _⟩ := h
  exact ⟨cols, rows, h1, h2⟩

/-- Counterexample for C4 as stated: the export columns are `sorted(...)`
by code point, so `"Banana"` precedes `"apple"` — not the case-insensitive
ascending order the claim asserts (which would put `"apple"` first). -/
theorem export_columns_not_case_insensitive :
    (exportTable 1 (Date.mk 2024 1 10)
        (DB.mk [Expense.mk 1 (Date.mk 2024 1 5) "Banana".data 1,
                Expense.mk 1 (Date.mk 2024 1 6) "apple".data 2] [])).map
        (fun p => p.1) = some ["Дата".data, "Banana".data, "apple".data] ∧
    isort ciLe ["Banana".data, "apple".data] = ["apple".data, "Banana".data] ∧
    ["Banana".data, "apple".data] ≠ ["apple".data, "Banana".data] := by
  refine ⟨by decide, by decide, by decide⟩

/-! ## C8: the awaiting-batch step relation -/

/-- `pat` occurs contiguously inside `s`. -/
def containsSeq (pat s : List Char) : Prop := ∃ u v, s = u ++ (pat ++ v)

theorem containsSeq_middle (u pat v s : List Char) (hs : s = u ++ pat ++ v) :
    containsSeq pat s := ⟨u, v, by rw [hs, List.append_assoc]⟩

/-- C8: in an awaiting-batch state, a successful parse applies every pair
and returns the state to idle; a failed parse leaves the state and the
store untouched and answers an error message that carries the parse error
and the retry hint. -/
theorem awaiting_batch_step (st : ChatState)
    (h : st = ChatState.awaitingExpenses ∨ st = ChatState.awaitingLimits)
    (uid : ℕ) (t : Date) (text : List Char) (db : DB) :
    (∀ items, parse text = .ok items →
      (handleText st uid t text db).1 = ChatState.idle ∧
      (handleText st uid t text db).2.1 =
        (if st = ChatState.awaitingExpenses then addExpensesDb uid items t db
         else setLimitsDb uid items db)) ∧
    (∀ e, parse text = .error e →
      (handleText st uid t text db).1 = st ∧
      (handleText st uid t text db).2.1 = db ∧
      ∃ msg, (handleText st uid t text db).2.2 = Reply.errorRetry msg ∧
        containsSeq (renderErr e) msg ∧ containsSeq retryHintTag msg) := by
  rcases h with rfl | rfl
  · constructor
    · intro items hp
      refine ⟨by simp [handleText, hp], by simp [handleText, hp]⟩
    · intro e hp
      refine ⟨by simp [handleText, hp], by simp [handleText, hp],
        errReplyExpenses e, by simp [handleText, hp], ?_, ?_⟩
      · exact containsSeq_middle "⚠ Ошибка: ".data (renderErr e)
          ("\n\n".data ++ retryHintTag ++
            ":\n<code>Еда-500\nТакси-300\nКофе-200</code>".data) _
          (by simp [errReplyExpenses, List.append_assoc])
      · exact containsSeq_middle ("⚠ Ошибка: ".data ++ renderErr e ++ "\n\n".data)
          retryHintTag (":\n<code>Еда-500\nТакси-300\nКофе-200</code>".data) _
          (by simp [errReplyExpenses, List.append_assoc])
  · constructor
    · intro items hp
      refine ⟨by simp [handleText, hp], by simp [handleText, hp]⟩
    · intro e hp
      refine ⟨by simp [handleText, hp], by simp [handleText, hp],
        errReplyLimits e, by simp [handleText, hp], ?_, ?_⟩
      · exact containsSeq_middle "⚠ Ошибка: ".data (renderErr e)
          ("\n\n".data ++ retryHintTag ++ ":\n<code>Еда-20000\nТакси-5000</code>".data) _
          (by simp [errReplyLimits, List.append_assoc])
      · exact containsSeq_middle ("⚠ Ошибка: ".data ++ renderErr e ++ "\n\n".data)
          retryHintTag (":\n<code>Еда-20000\nТакси-5000</code>".data) _
          (by simp [errReplyLimits, List.append_assoc])

/-- Witness for C8: a good batch clears the awaiting state; a bad batch
keeps it and leaves the store unchanged. -/
theorem awaiting_batch_step_witness :
    (handleText ChatState.awaitingExpenses 1 (Date.mk 2024 5 17) "Еда-500".data initDb).1
      = ChatState.idle ∧
    (handleText ChatState.awaitingExpenses 1 (Date.mk 2024 5 17) "abc".data initDb).1
      = ChatState.awaitingExpenses ∧
    (handleText ChatState.awaitingExpenses 1 (Date.mk 2024 5 17) "abc".data initDb).2.1
      = initDb := by
  have hok := awaiting_batch_step ChatState.awaitingExpenses (Or.inl rfl) 1
    (Date.mk 2024 5 17) "Еда-500".data initDb
  have herr := awaiting_batch_step ChatState.awaitingExpenses (Or.inl rfl) 1
    (Date.mk 2024 5 17) "abc".data initDb
  refine ⟨(hok.1 [("Еда".data, 500)] (by with_unfolding_all decide)).1, ?_, ?_⟩
  · exact (herr.2 (ParseErr.missingSep "abc".data) (by decide)).1
  · exact (herr.2 (ParseErr.missingSep "abc".data) (by decide)).2.1

/-! ## C10: a bad line commits nothing -/

theorem parseLines_error_of_bad (ls : List (List Char))
    (h : ∃ l ∈ ls, ∃ e, lineResult l = .error e) :
    ∃ e, parseLines ls = .error e := by
  induction ls with
  | nil => simp at h
  | cons l ls ih =>
    rcases h with ⟨lbad, hl, e, he⟩
    rcases List.mem_cons.mp hl with rfl | hmem
    · exact ⟨e, by simp [parseLines, he]⟩
    · cases hr : lineResult l with
      | error e2 => exact ⟨e2, by simp [parseLines, hr]⟩
      | ok p =>
        obtain ⟨e3, he3⟩ := ih ⟨lbad, hmem, e, he⟩
        exact ⟨e3, by simp [parseLines, hr, he3]⟩

/-- C10: if any (stripped, non-blank) line of an incoming text fails to
parse, the whole parse raises, and no handler — batch expenses, batch
limits, or idle auto-insert — writes anything: the store is returned
unchanged in every conversation state. -/
theorem bad_line_blocks_all_writes (text : List Char)
    (h : ∃ l ∈ linesOf text, ∃ e, lineResult l = .error e) :
    (∃ e, parse text = .error e) ∧
    ∀ st uid t db, (handleText st uid t text db).2.1 = db := by
  have hp : ∃ e, parse text = .error e := by
    unfold parse
    by_cases hl : linesOf text = []
    · exact ⟨.emptyInput, by simp [hl]⟩
    · rw [if_neg hl]
      exact parseLines_error_of_bad (linesOf text) h
  refine ⟨hp, ?_⟩
  intro st uid t db
  obtain ⟨e, he⟩ := hp
  cases st <;> simp [handleText, he]

/-- Witness for C10: a message whose single line has a malformed amount
leaves the store untouched in the idle state. -/
theorem bad_line_blocks_all_writes_witness :
    (∃ e, parse "Еда-abc".data = .error e) ∧
    (handleText ChatState.idle 1 (Date.mk 2024 5 17) "Еда-abc".data initDb).2.1 = initDb := by
  have h := bad_line_blocks_all_writes "Еда-abc".data
    ⟨"Еда-abc".data, by decide, ParseErr.invalidAmount "Еда-abc".data, by decide⟩
  exact ⟨h.1, h.2 ChatState.idle 1 (Date.mk 2024 5 17) initDb⟩

/-! ## C2: the parse-error taxonomy -/

/-- The disjunction of per-line failure conditions of the claim: no
separator; blank category after trimming; blank amount; amount that is
not a number; amount ≤ 0. -/
def badLine (l : List Char) : Prop :=
  (∀ s ∈ sepChars, ¬ s ∈ l) ∨
  ∃ i, sepIdx l = some i ∧
    (trimC (l.take i) = [] ∨ cleanAmount (l.drop (i + 1)) = [] ∨
     pyFloat (cleanAmount (l.drop (i + 1))) = none ∨
     ∃ q, pyFloat (cleanAmount (l.drop (i + 1))) = some q ∧ q ≤ 0)

theorem sepIdx_eq_none_iff (l : List Char) :
    sepIdx l = none ↔ ∀ s ∈ sepChars, ¬ s ∈ l := by
  unfold sepIdx sepChars
  by_cases h1 : l.any (fun c => decide (c = '-')) = true
  · simp only [h1, if_true]
    rw [List.any_eq_true] at h1
    obtain ⟨c, hc, he⟩ := h1
    rw [decide_eq_true_eq] at he
    rw [he] at hc
    constructor
    · intro hcontra
      exact absurd hcontra (by simp)
    · intro hall
      exact absurd hc (hall _ (by simp))
  · rw [if_neg h1]
    by_cases h2 : l.any (fun c => decide (c = '—')) = true
    · simp only [h2, if_true]
      rw [List.any_eq_true] at h2
      obtain ⟨c, hc, he⟩ := h2
      rw [decide_eq_true_eq] at he
      rw [he] at hc
      constructor
      · intro hcontra
        exact absurd hcontra (by simp)
      · intro hall
        exact absurd hc (hall _ (by simp))
    · rw [if_neg h2]
      by_cases h3 : l.any (fun c => decide (c = '–')) = true
      · simp only [h3, if_true]
        rw [List.any_eq_true] at h3
        obtain ⟨c, hc, he⟩ := h3
        rw [decide_eq_true_eq] at he
        rw [he] at hc
        constructor
        · intro hcontra
          exact absurd hcontra (by simp)
        · intro hall
          exact absurd hc (hall _ (by simp))
      · rw [if_neg h3]
        simp only [true_iff]
        intro s hs hmem
        simp only [List.mem_cons, List.not_mem_nil, or_false] at hs
        rcases hs with rfl | rfl | rfl
        · exact h1 (List.any_eq_true.mpr ⟨_, hmem, by simp⟩)
        · exact h2 (List.any_eq_true.mpr ⟨_, hmem, by simp⟩)
        · exact h3 (List.any_eq_true.mpr ⟨_, hmem, by simp⟩)

theorem lineResult_error_iff (l : List Char) :
    (∃ e, lineResult l = .error e) ↔ badLine l := by
  unfold lineResult badLine
  cases hsep : sepIdx l with
  | none =>
    simp only [hsep]
    constructor
    · intro _
      exact Or.inl ((sepIdx_eq_none_iff l).mp hsep)
    · intro _
      exact ⟨.missingSep l, rfl⟩
  | some i =>
    simp only [hsep]
    have hnosep : ¬ (∀ s ∈ sepChars, ¬ s ∈ l) := by
      intro hall
      rw [← sepIdx_eq_none_iff] at hall
      rw [hsep] at hall
      exact Option.noConfusion hall
    constructor
    · rintro ⟨e, he⟩
      right
      refine ⟨i, rfl, ?_⟩
      by_cases h1 : trimC (l.take i) = []
      · exact Or.inl h1
      · by_cases h2 : cleanAmount (l.drop (i + 1)) = []
        · exact Or.inr (Or.inl h2)
        · cases hq : pyFloat (cleanAmount (l.drop (i + 1))) with
          | none => exact Or.inr (Or.inr (Or.inl rfl))
          | some q =>
            by_cases h3 : q ≤ 0
            · exact Or.inr (Or.inr (Or.inr ⟨q, rfl, h3⟩))
            · exfalso
              simp [h1, h2, hq, h3] at he
    · rintro (hsem | ⟨i', hi', hcond⟩)
      · exact absurd hsem hnosep
      · injection hi' with hii
        subst hii
        by_cases h1 : trimC (l.take i) = []
        · exact ⟨.emptyCategory l, by simp [h1]⟩
        · by_cases h2 : cleanAmount (l.drop (i + 1)) = []
          · exact ⟨.emptyAmount l, by simp [h1, h2]⟩
          · rcases hcond with h | h | h | ⟨q, hq, hle⟩
            · exact absurd h h1
            · exact absurd h h2
            · exact ⟨.invalidAmount l, by simp [h1, h2, h]⟩
            · exact ⟨.nonPositiveAmount l, by simp [h1, h2, hq, hle]⟩

theorem parseLines_error_mem (ls : List (List Char)) (e : ParseErr)
    (h : parseLines ls = .error e) : ∃ l ∈ ls, lineResult l = .error e := by
  induction ls with
  | nil => simp [parseLines] at h
  | cons l ls ih =>
    unfold parseLines at h
    cases hr : lineResult l with
    | error e2 =>
      rw [hr] at h
      injection h with h2
      exact ⟨l, List.mem_cons_self l ls, by rw [hr, h2]⟩
    | ok p =>
      rw [hr] at h
      cases hps : parseLines ls with
      | error e3 =>
        rw [hps] at h
        injection h with h3
        obtain ⟨l', hm, hl'⟩ := ih (by rw [hps, h3])
        exact ⟨l', List.mem_cons_of_mem l hm, hl'⟩
      | ok ps =>
        rw [hps] at h
        exact absurd h (by simp)

theorem lineResult_error_line (l : List Char) (e : ParseErr)
    (h : lineResult l = .error e) :
    errLine e = some l ∧ containsSeq l (renderErr e) := by
  unfold lineResult at h
  cases hsep : sepIdx l with
  | none =>
    rw [hsep] at h
    injection h with h2
    subst h2
    exact ⟨rfl, containsSeq_middle
      "Не удалось найти разделитель \x27-\x27 в строке: «".data l "»".data _ rfl⟩
  | some i =>
    rw [hsep] at h
    dsimp only at h
    by_cases h1 : trimC (l.take i) = []
    · rw [if_pos h1] at h
      injection h with h2
      subst h2
      exact ⟨rfl, containsSeq_middle "Не указана категория в строке: «".data l "»".data _ rfl⟩
    · rw [if_neg h1] at h
      by_cases h2 : cleanAmount (l.drop (i + 1)) = []
      · rw [if_pos h2] at h
        injection h with h3
        subst h3
        exact ⟨rfl, containsSeq_middle "Не указана сумма в строке: «".data l "»".data _ rfl⟩
      · rw [if_neg h2] at h
        cases hq : pyFloat (cleanAmount (l.drop (i + 1))) with
        | none =>
          rw [hq] at h
          injection h with h4
          subst h4
          exact ⟨rfl, containsSeq_middle
            "Не удалось распознать сумму в строке: «".data l "»".data _ rfl⟩
        | some q =>
          rw [hq] at h
          dsimp only at h
          by_cases h5 : q ≤ 0
          · rw [if_pos h5] at h
            injection h with h6
            subst h6
            exact ⟨rfl, containsSeq_middle
              "Сумма должна быть больше 0: «".data l "»".data _ rfl⟩
          · rw [if_neg h5] at h
            exact absurd h (by simp)

/-- C2: `parse_lines_category_amount` raises exactly when the input has no
non-blank lines or some line satisfies one of the five per-line failure
conditions; and every per-line error message contains the offending
(stripped) line verbatim. -/
theorem parse_raises_iff (text : List Char) :
    ((∃ e, parse text = .error e) ↔
      (linesOf text = [] ∨ ∃ l ∈ linesOf text, badLine l)) ∧
    (∀ e, parse text = .error e →
      e = ParseErr.emptyInput ∨
      ∃ l ∈ linesOf text, errLine e = some l ∧ containsSeq l (renderErr e)) := by
  constructor
  · unfold parse
    by_cases hl : linesOf text = []
    · simp only [hl, if_true]
      constructor
      · intro _
        simp
      · intro _
        exact ⟨.emptyInput, by simp⟩
    · rw [if_neg hl]
      constructor
      · rintro ⟨e, he⟩
        obtain ⟨l, hm, hle⟩ := parseLines_error_mem _ e he
        exact Or.inr ⟨l, hm, (lineResult_error_iff l).mp ⟨e, hle⟩⟩
      · rintro (h | ⟨l, hm, hbad⟩)
        · exact absurd h hl
        · obtain ⟨e, he⟩ := (lineResult_error_iff l).mpr hbad
          exact parseLines_error_of_bad _ ⟨l, hm, e, he⟩
  · intro e he
    unfold parse at he
    by_cases hl : linesOf text = []
    · rw [if_pos hl] at he
      injection he with h2
      exact Or.inl h2.symm
    · rw [if_neg hl] at he
      obtain ⟨l, hm, hle⟩ := parseLines_error_mem _ e he
      exact Or.inr ⟨l, hm, lineResult_error_line l e hle⟩

/-- Witness for C2 at the separator-free line `"abc"`. -/
theorem parse_raises_iff_witness :
    (linesOf "abc".data = [] ∨ ∃ l ∈ linesOf "abc".data, badLine l) ∧
    (ParseErr.missingSep "abc".data = ParseErr.emptyInput ∨
      ∃ l ∈ linesOf "abc".data, errLine (ParseErr.missingSep "abc".data) = some l ∧
        containsSeq l (renderErr (ParseErr.missingSep "abc".data))) := by
  have h := parse_raises_iff "abc".data
  exact ⟨h.1.mp ⟨ParseErr.missingSep "abc".data, by decide⟩,
    h.2 (ParseErr.missingSep "abc".data) (by decide)⟩

/-! ## C1: well-formed batches parse to exactly their pairs -/

theorem dropWhile_append_cons (p : Char → Bool) (u v : List Char) (s : Char)
    (hs : p s = false) :
    (u ++ s :: v).dropWhile p = u.dropWhile p ++ s :: v := by
  induction u with
  | nil => simp [List.dropWhile_cons, hs]
  | cons x xs ih =>
    by_cases hx : p x
    · simp [List.dropWhile_cons, hx, ih]
    · simp [List.dropWhile_cons, hx]

theorem dropWhile_idem (p : Char → Bool) (l : List Char) :
    (l.dropWhile p).dropWhile p = l.dropWhile p := by
  induction l with
  | nil => rfl
  | cons x xs ih =>
    by_cases hx : p x
    · simp [List.dropWhile_cons, hx, ih]
    · simp [List.dropWhile_cons, hx]

theorem dropWhile_append_split (p : Char → Bool) (u v : List Char) :
    (u ++ v).dropWhile p =
      if (u.dropWhile p).isEmpty then v.dropWhile p else u.dropWhile p ++ v := by
  induction u with
  | nil => simp
  | cons x xs ih =>
    by_cases hx : p x
    · simp [List.dropWhile_cons, hx, ih]
    · simp [List.dropWhile_cons, hx]

theorem ltrim_append_cons (c a : List Char) (s : Char) (hs : isWsChar s = false) :
    ltrim (c ++ s :: a) = ltrim c ++ s :: a :=
  dropWhile_append_cons isWsChar c a s hs

theorem rtrim_append_cons (x y : List Char) (s : Char) (hs : isWsChar s = false) :
    rtrim (x ++ s :: y) = x ++ s :: rtrim y := by
  unfold rtrim
  rw [show x ++ s :: y = x ++ [s] ++ y by simp]
  rw [List.reverse_append, List.reverse_append]
  simp only [List.reverse_cons, List.reverse_nil, List.nil_append, List.append_assoc,
    List.singleton_append]
  rw [dropWhile_append_cons isWsChar y.reverse x.reverse s hs]
  simp [List.reverse_append]

theorem trimC_append_cons (c a : List Char) (s : Char) (hs : isWsChar s = false) :
    trimC (c ++ s :: a) = ltrim c ++ s :: rtrim a := by
  unfold trimC
  rw [ltrim_append_cons c a s hs, rtrim_append_cons (ltrim c) a s hs]

theorem ltrim_idem (l : List Char) : ltrim (ltrim l) = ltrim l :=
  dropWhile_idem isWsChar l

theorem rtrim_idem (l : List Char) : rtrim (rtrim l) = rtrim l := by
  unfold rtrim
  rw [List.reverse_reverse, dropWhile_idem]

theorem ltrim_cons_of_ws (x : Char) (xs : List Char) (hx : isWsChar x = true) :
    ltrim (x :: xs) = ltrim xs := by
  simp [ltrim, List.dropWhile_cons, hx]

theorem ltrim_cons_of_not_ws (x : Char) (xs : List Char) (hx : isWsChar x = false) :
    ltrim (x :: xs) = x :: xs := by
  simp [ltrim, List.dropWhile_cons, hx]

theorem rtrim_cons (x : Char) (xs : List Char) :
    rtrim (x :: xs) =
      if rtrim xs = [] then (if isWsChar x then [] else [x]) else x :: rtrim xs := by
  unfold rtrim
  rw [List.reverse_cons, dropWhile_append_split]
  by_cases h : xs.reverse.dropWhile isWsChar = []
  · rw [if_pos (by simp [h]), if_pos (by simp [h])]
    by_cases hx : isWsChar x
    · simp [List.dropWhile_cons, hx]
    · simp [List.dropWhile_cons, hx]
  · rw [if_neg (by simp [h]), if_neg (by simp [h])]
    simp [List.reverse_append]

theorem ltrim_rtrim_comm (a : List Char) : ltrim (rtrim a) = rtrim (ltrim a) := by
  induction a with
  | nil => rfl
  | cons x xs ih =>
    by_cases hx : isWsChar x
    · rw [rtrim_cons, ltrim_cons_of_ws x xs hx]
      by_cases h : rtrim xs = []
      · rw [if_pos h, if_pos hx]
        calc ltrim ([] : List Char) = ltrim (rtrim xs) := by rw [h]
          _ = rtrim (ltrim xs) := ih
      · rw [if_neg h, ltrim_cons_of_ws x (rtrim xs) hx]
        exact ih
    · have hx2 : isWsChar x = false := by
        rw [Bool.eq_false_iff]
        exact hx
      rw [ltrim_cons_of_not_ws x xs hx2, rtrim_cons]
      by_cases h : rtrim xs = []
      · rw [if_pos h, if_neg hx]
        exact ltrim_cons_of_not_ws x [] hx2
      · rw [if_neg h]
        exact ltrim_cons_of_not_ws x (rtrim xs) hx2

theorem trimC_rtrim (a : List Char) : trimC (rtrim a) = trimC a := by
  unfold trimC
  rw [ltrim_rtrim_comm, rtrim_idem]

theorem trimC_ltrim (a : List Char) : trimC (ltrim a) = trimC a := by
  unfold trimC
  rw [ltrim_idem]

theorem cleanAmount_rtrim (a : List Char) : cleanAmount (rtrim a) = cleanAmount a := by
  unfold cleanAmount
  rw [trimC_rtrim]

theorem mem_ltrim_subset {c : Char} {l : List Char} (h : c ∈ ltrim l) : c ∈ l :=
  (List.dropWhile_sublist _).subset h

theorem mem_rtrim_subset {c : Char} {l : List Char} (h : c ∈ rtrim l) : c ∈ l := by
  unfold rtrim at h
  rw [List.mem_reverse] at h
  have := (List.dropWhile_sublist _).subset h
  rw [List.mem_reverse] at this
  exact this

/-- `"\n".join(lines)`: how a multi-line message is assembled. -/
def joinNl : List (List Char) → List Char
  | [] => []
  | l :: ls =>
    match ls with
    | [] => l
    | _ :: _ => l ++ '\n' :: joinNl ls

theorem splitNl_no_nl (l : List Char) (h : ∀ c ∈ l, isNlChar c = false) :
    splitNl l = [l] := by
  induction l with
  | nil => rfl
  | cons c cs ih =>
    have hc : isNlChar c = false := h c (List.mem_cons_self c cs)
    have ihr := ih (fun c' hc' => h c' (List.mem_cons_of_mem c hc'))
    simp [splitNl, hc, ihr]

theorem splitNl_append_cons (x rest : List Char) (hx : ∀ c ∈ x, isNlChar c = false) :
    splitNl (x ++ '\n' :: rest) = x :: splitNl rest := by
  induction x with
  | nil =>
    have h1 : isNlChar '\n' = true := by decide
    simp [splitNl, h1]
  | cons c cs ih =>
    have hc : isNlChar c = false := hx c (List.mem_cons_self c cs)
    have ihr := ih (fun c' hc' => hx c' (List.mem_cons_of_mem c hc'))
    calc splitNl ((c :: cs) ++ '\n' :: rest)
        = (if isNlChar c then [] :: splitNl (cs ++ '\n' :: rest)
           else match splitNl (cs ++ '\n' :: rest) with
                | [] => [[c]]
                | h :: t => (c :: h) :: t) := rfl
      _ = (match splitNl (cs ++ '\n' :: rest) with
           | [] => [[c]]
           | h :: t => (c :: h) :: t) := by rw [hc]; simp
      _ = (c :: cs) :: splitNl rest := by rw [ihr]

theorem splitNl_joinNl (ls : List (List Char)) (hne : ls ≠ [])
    (h : ∀ l ∈ ls, ∀ c ∈ l, isNlChar c = false) :
    splitNl (joinNl ls) = ls := by
  induction ls with
  | nil => exact absurd rfl hne
  | cons l t ih =>
    cases t with
    | nil =>
      exact splitNl_no_nl l (h l (List.mem_cons_self l []))
    | cons l2 t2 =>
      have hj : joinNl (l :: l2 :: t2) = l ++ '\n' :: joinNl (l2 :: t2) := rfl
      rw [hj, splitNl_append_cons l _ (h l (List.mem_cons_self l _)),
        ih (by simp) (fun l' hl' => h l' (List.mem_cons_of_mem l hl'))]

theorem sep_not_ws (s : Char) (hs : s ∈ sepChars) : isWsChar s = false := by
  simp only [sepChars, List.mem_cons, List.not_mem_nil, or_false] at hs
  rcases hs with rfl | rfl | rfl <;> decide

theorem sep_not_nl (s : Char) (hs : s ∈ sepChars) : isNlChar s = false := by
  simp only [sepChars, List.mem_cons, List.not_mem_nil, or_false] at hs
  rcases hs with rfl | rfl | rfl <;> decide

theorem findIdx_append_cons (p : Char → Bool) (x y : List Char) (s : Char)
    (hx : ∀ c ∈ x, p c = false) (hs : p s = true) :
    (x ++ s :: y).findIdx p = x.length := by
  induction x with
  | nil => simp [List.findIdx_cons, hs]
  | cons c cs ih =>
    have hc : p c = false := hx c (List.mem_cons_self c cs)
    have ihr := ih (fun c' hc' => hx c' (List.mem_cons_of_mem c hc'))
    simp [List.findIdx_cons, hc, ihr]

theorem no_sep_any_ne (x y : List Char) (s z : Char) (hzs : z ≠ s)
    (hzsep : z ∈ sepChars)
    (hx : ∀ c ∈ x, c ∉ sepChars) (hy : ∀ c ∈ y, c ∉ sepChars) :
    ¬ ((x ++ s :: y).any (fun c => decide (c = z)) = true) := by
  intro hcon
  rw [List.any_eq_true] at hcon
  obtain ⟨c, hc, hcz⟩ := hcon
  rw [decide_eq_true_eq] at hcz
  subst hcz
  rcases List.mem_append.mp hc with h | h
  · exact (hx _ h) hzsep
  · rcases List.mem_cons.mp h with h | h
    · exact hzs h
    · exact (hy _ h) hzsep

theorem sepIdx_append (x y : List Char) (s : Char) (hs : s ∈ sepChars)
    (hx : ∀ c ∈ x, c ∉ sepChars) (hy : ∀ c ∈ y, c ∉ sepChars) :
    sepIdx (x ++ s :: y) = some x.length := by
  have hgen : ∀ z : Char, z ∈ sepChars → z = s →
      (x ++ s :: y).findIdx (fun c => decide (c = z)) = x.length := by
    intro z _ hz
    subst hz
    exact findIdx_append_cons _ x y z
      (fun c hc => decide_eq_false (fun hcc => (hx c hc) (hcc ▸ hs)))
      (by simp)
  simp only [sepChars, List.mem_cons, List.not_mem_nil, or_false] at hs
  unfold sepIdx
  rcases hs with rfl | rfl | rfl
  · rw [if_pos (List.any_eq_true.mpr ⟨'-', by simp, by simp⟩)]
    rw [hgen '-' (by simp [sepChars]) rfl]
  · rw [if_neg (no_sep_any_ne x y '—' '-' (by decide) (by simp [sepChars]) hx hy)]
    rw [if_pos (List.any_eq_true.mpr ⟨'—', by simp, by simp⟩)]
    rw [hgen '—' (by simp [sepChars]) rfl]
  · rw [if_neg (no_sep_any_ne x y '–' '-' (by decide) (by simp [sepChars]) hx hy)]
    rw [if_neg (no_sep_any_ne x y '–' '—' (by decide) (by simp [sepChars]) hx hy)]
    rw [if_pos (List.any_eq_true.mpr ⟨'–', by simp, by simp⟩)]
    rw [hgen '–' (by simp [sepChars]) rfl]

theorem lineResult_wellformed (cat amt : List Char) (s : Char) (q : ℚ)
    (hs : s ∈ sepChars)
    (hcat : ∀ c ∈ cat, c ∉ sepChars) (hamt : ∀ c ∈ amt, c ∉ sepChars)
    (hcne : trimC cat ≠ [])
    (hq : pyFloat (cleanAmount amt) = some q) (hpos : 0 < q) :
    lineResult (ltrim cat ++ s :: rtrim amt) = .ok (trimC cat, q) := by
  have hx : ∀ c ∈ ltrim cat, c ∉ sepChars := fun c hc => hcat c (mem_ltrim_subset hc)
  have hy : ∀ c ∈ rtrim amt, c ∉ sepChars := fun c hc => hamt c (mem_rtrim_subset hc)
  unfold lineResult
  rw [sepIdx_append (ltrim cat) (rtrim amt) s hs hx hy]
  dsimp only
  have htake : (ltrim cat ++ s :: rtrim amt).take (ltrim cat).length = ltrim cat :=
    List.take_left (ltrim cat) (s :: rtrim amt)
  have hdrop : (ltrim cat ++ s :: rtrim amt).drop ((ltrim cat).length + 1) = rtrim amt := by
    rw [show ltrim cat ++ s :: rtrim amt = (ltrim cat ++ [s]) ++ rtrim amt by simp]
    rw [show (ltrim cat).length + 1 = (ltrim cat ++ [s]).length by simp]
    exact List.drop_left (ltrim cat ++ [s]) (rtrim amt)
  rw [htake, hdrop, trimC_ltrim, cleanAmount_rtrim]
  have hane : cleanAmount amt ≠ [] := by
    intro hnil
    rw [hnil] at hq
    have hnone : pyFloat ([] : List Char) = none := rfl
    rw [hnone] at hq
    exact Option.noConfusion hq
  rw [if_neg hcne, if_neg hane, hq]
  dsimp only
  rw [if_neg (not_le.mpr hpos)]

/-- One raw line `Category<sep>Amount` of a well-formed batch, together
with the number its amount denotes. -/
structure RawEntry where
  cat : List Char
  sep : Char
  amt : List Char
  val : ℚ

/-- A line is well formed when: its separator is one of the three
recognised ones, neither side contains a separator or a line boundary,
the category is non-blank after trimming, and the amount side (after
strip / space removal / comma-to-dot) is a decimal number greater than 0. -/
def WfEntry (e : RawEntry) : Prop :=
  e.sep ∈ sepChars ∧
  (∀ c ∈ e.cat, c ∉ sepChars ∧ isNlChar c = false) ∧
  (∀ c ∈ e.amt, c ∉ sepChars ∧ isNlChar c = false) ∧
  trimC e.cat ≠ [] ∧
  pyFloat (cleanAmount e.amt) = some e.val ∧
  0 < e.val

instance (e : RawEntry) : Decidable (WfEntry e) := by
  unfold WfEntry
  infer_instance

/-- The raw text of one entry. -/
def mkLine (e : RawEntry) : List Char := e.cat ++ e.sep :: e.amt

theorem parseLines_wellformed (entries : List RawEntry)
    (hwf : ∀ e ∈ entries, WfEntry e) :
    parseLines (entries.map (fun e => ltrim e.cat ++ e.sep :: rtrim e.amt)) =
      .ok (entries.map (fun e => (trimC e.cat, e.val))) := by
  induction entries with
  | nil => rfl
  | cons e es ih =>
    obtain ⟨hs, hcat, hamt, hcne, hq, hpos⟩ := hwf e (List.mem_cons_self e es)
    simp only [List.map_cons]
    unfold parseLines
    rw [lineResult_wellformed e.cat e.amt e.sep e.val hs
      (fun c hc => (hcat c hc).1) (fun c hc => (hamt c hc).1) hcne hq hpos]
    rw [ih (fun e' he' => hwf e' (List.mem_cons_of_mem e he'))]

/-- C1: a well-formed multi-line batch (one `Category<sep>Amount` per
line) parses to exactly one pair per line, in input order, with the
category trimmed and the amount read as a decimal number with an optional
comma decimal point. -/
theorem parse_wellformed_batch (entries : List RawEntry) (hne : entries ≠ [])
    (hwf : ∀ e ∈ entries, WfEntry e) :
    parse (joinNl (entries.map mkLine)) =
      .ok (entries.map (fun e => (trimC e.cat, e.val))) := by
  have hlines : linesOf (joinNl (entries.map mkLine)) =
      entries.map (fun e => ltrim e.cat ++ e.sep :: rtrim e.amt) := by
    unfold linesOf
    rw [splitNl_joinNl (entries.map mkLine) (by simp [hne])]
    · rw [List.map_map]
      have hmap : entries.map (trimC ∘ mkLine) =
          entries.map (fun e => ltrim e.cat ++ e.sep :: rtrim e.amt) := by
        apply List.map_congr_left
        intro e he
        obtain ⟨hs, hcat, hamt, _, _, _⟩ := hwf e he
        exact trimC_append_cons e.cat e.amt e.sep (sep_not_ws e.sep hs)
      rw [hmap]
      apply List.filter_eq_self.mpr
      intro a ha
      rw [List.mem_map] at ha
      obtain ⟨e, he, rfl⟩ := ha
      simp
    · intro l hl c hc
      rw [List.mem_map] at hl
      obtain ⟨e, he, rfl⟩ := hl
      obtain ⟨hs, hcat, hamt, _, _, _⟩ := hwf e he
      rcases List.mem_append.mp hc with h | h
      · exact (hcat c h).2
      · rcases List.mem_cons.mp h with rfl | h
        · exact sep_not_nl _ hs
        · exact (hamt c h).2
  unfold parse
  rw [hlines, if_neg (by simp [hne])]
  exact parseLines_wellformed entries hwf

/-- Witness for C1 on the two spec examples: `"Cat1-10\nCat2-20.5"`
yields `[("Cat1", 10), ("Cat2", 20.5)]`, and `"Food-12,5"` yields
amount `12.5`. -/
theorem parse_wellformed_batch_witness :
    parse "Cat1-10\nCat2-20.5".data =
      .ok [("Cat1".data, (10 : ℚ)), ("Cat2".data, (41 : ℚ)/2)] ∧
    parse "Food-12,5".data = .ok [("Food".data, (25 : ℚ)/2)] := by
  have h1 := parse_wellformed_batch
    [RawEntry.mk "Cat1".data '-' "10".data 10, RawEntry.mk "Cat2".data '-' "20.5".data (41/2)]
    (List.cons_ne_nil _ _) (by with_unfolding_all decide)
  have h2 := parse_wellformed_batch [RawEntry.mk "Food".data '-' "12,5".data (25/2)]
    (List.cons_ne_nil _ _) (by with_unfolding_all decide)
  constructor
  · rw [show joinNl ([RawEntry.mk "Cat1".data '-' "10".data 10,
        RawEntry.mk "Cat2".data '-' "20.5".data (41/2)].map mkLine)
        = "Cat1-10\nCat2-20.5".data from by decide] at h1
    rw [show ([RawEntry.mk "Cat1".data '-' "10".data 10,
        RawEntry.mk "Cat2".data '-' "20.5".data (41/2)].map
          (fun e => (trimC e.cat, e.val)))
        = [("Cat1".data, (10 : ℚ)), ("Cat2".data, (41 : ℚ)/2)] from by
          with_unfolding_all decide] at h1
    exact h1
  · rw [show joinNl ([RawEntry.mk "Food".data '-' "12,5".data (25/2)].map mkLine)
        = "Food-12,5".data from by decide] at h2
    rw [show ([RawEntry.mk "Food".data '-' "12,5".data (25/2)].map
          (fun e => (trimC e.cat, e.val)))
        = [("Food".data, (25 : ℚ)/2)] from by with_unfolding_all decide] at h2
    exact h2

end DuckLedger
